import Mathlib

/-!
Verification development for the Kaltura api-scripts repository
(three command-line tools: download-entries.py, report-count-duration.py,
unpublish-republish-entry.py).

Python strings are modelled as List Char, Python date objects as proleptic
Gregorian ordinals (Nat, day 1 = 0001-01-01, as in datetime.date.toordinal),
and every remote call is modelled by an oracle parameter giving the
platform's response.  Fallible calls return Option; a KalturaException is an
explicit error value.  While-loops are modelled with an explicit fuel
argument large enough to be unreachable (adequacy is proved where needed).
-/

-- ===================================================================
-- Shared character/string utilities (Python str semantics)
-- ===================================================================

-- Python ASCII whitespace, the characters matched by the regex class \s
-- and stripped by str.strip().
def pySpace (c : Char) : Bool :=
  c = ' ' || c = '\t' || c = '\n' || c = '\x0b' || c = '\x0c' || c = '\r'

-- s.startswith(pat) on character lists.
def startsWithChars : List Char → List Char → Bool
  | [], _ => true
  | _ :: _, [] => false
  | a :: as, b :: bs => a = b && startsWithChars as bs

def endsWithChars (suf s : List Char) : Bool :=
  startsWithChars suf.reverse s.reverse

-- Does the literal occur as a contiguous substring?
def containsLit (lit : List Char) : List Char → Bool
  | [] => startsWithChars lit []
  | c :: rest => startsWithChars lit (c :: rest) || containsLit lit rest

-- Python str.strip(): remove leading and trailing whitespace.
def pyStrip (s : List Char) : List Char :=
  ((s.dropWhile pySpace).reverse.dropWhile pySpace).reverse

-- Decimal digits of a Nat, used for Python f-string interpolation of the
-- collision counter.  fuel ≥ 1 always yields at least one digit.
def natDigits : Nat → Nat → List Char
  | 0, _ => []
  | fuel + 1, n =>
    if n < 10 then [Char.ofNat (48 + n)]
    else natDigits fuel (n / 10) ++ [Char.ofNat (48 + n % 10)]

def natChars (n : Nat) : List Char := natDigits (n + 1) n

-- ===================================================================
-- Category Republish Workflow (unpublish-republish-entry.py)
-- ===================================================================

-- The single category-entry association the workflow manipulates:
-- none = no association listed (totalCount == 0), some v = association
-- present with status value v (2 is the active state).
structure CatState where
  assoc : Option Nat
deriving DecidableEq, Repr

-- entry_in_category (lines 101-106): totalCount > 0.
def entry_in_category (st : CatState) : Bool :=
  st.assoc.isSome

structure RemoveResult where
  ok : Bool
  state : CatState
  warnedSkip : Bool
  deleteCalled : Bool
deriving DecidableEq, Repr

-- remove_from_category (lines 109-126).  deleteRaises models
-- client.categoryEntry.delete raising an exception.
def remove_from_category (st : CatState) (deleteRaises : Bool) : RemoveResult :=
  if ¬ (st.assoc = some 2) then
    { ok := true, state := st, warnedSkip := true, deleteCalled := false }
  else if deleteRaises then
    { ok := false, state := st, warnedSkip := false, deleteCalled := true }
  else
    { ok := true, state := { assoc := none }, warnedSkip := false, deleteCalled := true }

-- add_to_category (lines 129-138).  addRaises models
-- client.categoryEntry.add raising an exception.
def add_to_category (st : CatState) (addRaises : Bool) : Bool × CatState :=
  if addRaises then (false, st) else (true, { assoc := some 2 })

inductive EntryOutcome
  | removalFailed
  | removalNotConfirmed
  | addFailed
  | addNotConfirmed
  | success
deriving DecidableEq, Repr

structure EntryReport where
  outcome : EntryOutcome
  warnedSkip : Bool
  deleteCalled : Bool
  addCalled : Bool
  finalState : CatState
deriving DecidableEq, Repr

-- The per-entry cycle of the main loop (lines 142-173): remove, verify
-- removal, add, verify addition, with continue-on-failure control flow.
def process_entry (st : CatState) (deleteRaises addRaises : Bool) : EntryReport :=
  let r := remove_from_category st deleteRaises
  if ¬ r.ok then
    { outcome := .removalFailed, warnedSkip := r.warnedSkip,
      deleteCalled := r.deleteCalled, addCalled := false, finalState := r.state }
  else if entry_in_category r.state then
    { outcome := .removalNotConfirmed, warnedSkip := r.warnedSkip,
      deleteCalled := r.deleteCalled, addCalled := false, finalState := r.state }
  else
    let a := add_to_category r.state addRaises
    if ¬ a.1 then
      { outcome := .addFailed, warnedSkip := r.warnedSkip,
        deleteCalled := r.deleteCalled, addCalled := true, finalState := a.2 }
    else if entry_in_category a.2 then
      { outcome := .success, warnedSkip := r.warnedSkip,
        deleteCalled := r.deleteCalled, addCalled := true, finalState := a.2 }
    else
      { outcome := .addNotConfirmed, warnedSkip := r.warnedSkip,
        deleteCalled := r.deleteCalled, addCalled := true, finalState := a.2 }

-- The whole run: each entry id is processed independently; a failure only
-- skips the rest of that entry's cycle (continue), never the run.
def run_entries (xs : List (CatState × Bool × Bool)) : List EntryReport :=
  xs.map (fun t => process_entry t.1 t.2.1 t.2.2)

-- ===================================================================
-- Count/Duration Reporter: chunk query loop (report-count-duration.py,
-- fetch_entries_for_interval, lines 160-301)
-- ===================================================================

-- What matters per returned entry for the loop's accumulators.
structure RCEntry where
  duration : Option Nat
  flavorKB : Nat
deriving DecidableEq, Repr

-- One page response of client.media.list: either a page of entries or a
-- KalturaException carrying an error code.
inductive PageResult
  | pages (es : List RCEntry)
  | kalturaError (code : List Char)

def maxMatchesCode : List Char := ("QUERY_EXCEEDED_MAX_MATCHES_ALLOWED").toList

-- Which of the two exit(1) paths fired (distinguished by what is printed).
inductive FetchExit
  | exceededGuidance
  | truncationWarning
deriving DecidableEq, Repr

inductive FetchOutcome
  | ok (entryCount totalDuration totalFlavorKB : Nat)
  | exit1 (which : FetchExit)
  | reraised (code : List Char)
  | fuelOut

-- The pagination loop.  platform maps a page index to the service's
-- response; flavorSizeEnabled selects the enrichment path (errors in the
-- enrichment are caught per entry, leaving the size oracle's value; with
-- the flag off the per-entry flavor size stays 0).  The returned list is
-- the trace of page indices actually queried.
def fetchLoop (platform : Nat → PageResult) (flavorSizeEnabled : Bool) :
    Nat → Nat → Nat → Nat → Nat → FetchOutcome × List Nat
  | _, _, _, _, 0 => (.fuelOut, [])
  | pageIndex, count, dur, flav, fuel + 1 =>
    match platform pageIndex with
    | .kalturaError code =>
      if code = maxMatchesCode then (.exit1 .exceededGuidance, [pageIndex])
      else (.reraised code, [pageIndex])
    | .pages [] => (.ok count dur flav, [pageIndex])
    | .pages es =>
      let count' := count + es.length
      let dur' := dur + (es.map (fun e => e.duration.getD 0)).sum
      let flav' := flav + (es.map (fun e => if flavorSizeEnabled then e.flavorKB else 0)).sum
      if 10000 ≤ count' then (.exit1 .truncationWarning, [pageIndex])
      else
        let rest := fetchLoop platform flavorSizeEnabled (pageIndex + 1) count' dur' flav' fuel
        (rest.1, pageIndex :: rest.2)

def fetch_entries_for_interval (platform : Nat → PageResult)
    (flavorSizeEnabled : Bool) (fuel : Nat) : FetchOutcome × List Nat :=
  fetchLoop platform flavorSizeEnabled 1 0 0 0 fuel

-- ===================================================================
-- Count/Duration Reporter: grand totals (lines 328-358)
-- ===================================================================

-- Python round(x, 2) (banker's rounding, modelled exactly over ℚ).
def roundHalfEven (q : ℚ) : ℤ :=
  let n := ⌊q⌋
  if q - n < 1 / 2 then n
  else if (1 : ℚ) / 2 < q - n then n + 1
  else if n % 2 = 0 then n else n + 1

def round2 (q : ℚ) : ℚ := (roundHalfEven (q * 100) : ℚ) / 100

-- Summary-row values: per chunk, minutes = round(seconds/60, 2) and
-- megabytes = round(kilobytes/1024, 2).
def chunkMinutes (durSec : ℚ) : ℚ := round2 (durSec / 60)

def chunkFlavorMB (kb : ℚ) : ℚ := round2 (kb / 1024)

def totalMinutes (ds : List ℚ) : ℚ := (ds.map chunkMinutes).sum

def totalHours (ds : List ℚ) : ℚ := totalMinutes ds / 60

def totalDays (ds : List ℚ) : ℚ := totalHours ds / 24

def totalMonths (ds : List ℚ) : ℚ := totalDays ds / (30.4375 : ℚ)

def totalYears (ds : List ℚ) : ℚ := totalDays ds / (365.25 : ℚ)

def totalFlavorGB (kbs : List ℚ) : ℚ := (kbs.map chunkFlavorMB).sum / 1024

-- ===================================================================
-- Entry Downloader (download-entries.py)
-- ===================================================================

def RETRY_ATTEMPTS : Nat := 3

def REMOVE_SUFFIX : Bool := true

-- A base/media entry as seen by the downloader.  mediaType = none models
-- an object without the mediaType attribute (e.g. a playlist);
-- downloadUrl is the direct download URL attribute.
structure PyEntry where
  eid : List Char
  mediaType : Option Nat
  downloadUrl : Option (List Char)
deriving DecidableEq, Repr

-- get_entry_details (lines 50-62): up to RETRY_ATTEMPTS attempts; a failed
-- attempt sleeps 2^attempt seconds.  fetch gives each attempt's result
-- (none = KalturaException).  Returns (result, sleeps performed, number of
-- calls made).
def retryLoop (fetch : Nat → Option PyEntry) : Nat → Nat → Option PyEntry × List Nat × Nat
  | _, 0 => (none, [], 0)
  | attempt, remaining + 1 =>
    match fetch attempt with
    | some e => (some e, [], 1)
    | none =>
      let r := retryLoop fetch (attempt + 1) remaining
      (r.1, 2 ^ attempt :: r.2.1, r.2.2 + 1)

def get_entry_details (fetch : Nat → Option PyEntry) : Option PyEntry × List Nat × Nat :=
  retryLoop fetch 0 RETRY_ATTEMPTS

structure FlavorAsset where
  fid : List Char
  isOriginal : Bool
deriving DecidableEq, Repr

-- get_flavor_download_url (lines 109-126): flavorsRes = none models a
-- KalturaException from the listing (caught, warning, None); getUrl is
-- client.flavorAsset.getUrl.
def get_flavor_download_url (flavorsRes : Option (List FlavorAsset))
    (getUrl : List Char → Option (List Char)) : Option (List Char) :=
  match flavorsRes with
  | none => none
  | some flavors =>
    match flavors.find? (fun f => f.isOriginal) with
    | some f => getUrl f.fid
    | none => none

-- get_download_url (lines 129-144).  details is the result of the retried
-- get_entry_details call.
def get_download_url (entry : PyEntry) (details : Option PyEntry)
    (flavorsRes : Option (List FlavorAsset))
    (getUrl : List Char → Option (List Char)) : Option (List Char) :=
  if entry.mediaType.isNone then none
  else
    match details with
    | none => none
    | some d =>
      match d.mediaType with
      | none => none
      | some mt => if mt = 2 then d.downloadUrl else get_flavor_download_url flavorsRes getUrl

-- The post-filter applied in main (line 286): drop entries without a
-- mediaType attribute.
def filter_media_entries (entries : List PyEntry) : List PyEntry :=
  entries.filter (fun e => e.mediaType.isSome)

-- ===================================================================
-- Entry Downloader: filename derivation (get_file_name, lines 147-183)
-- ===================================================================

def sourceLit : List Char := ("(Source)").toList

def mp4Lit : List Char := (".mp4").toList

def pySpaceUnd (c : Char) : Bool := pySpace c || c = '_'

def isTrailSep (c : Char) : Bool := c = '_' || c = '-' || pySpace c

-- os.path.splitext for a bare filename (no directory separators): split at
-- the last dot, unless every character before that dot is itself a dot.
def splitext (s : List Char) : List Char × List Char :=
  let tail := s.reverse.takeWhile (fun c => ¬ c = '.')
  if tail.length = s.length then (s, [])
  else
    let i := s.length - 1 - tail.length
    if (s.take i).any (fun c => ¬ c = '.') then (s.take i, s.drop i) else (s, [])

-- re.sub(r"[\s_]*\(Source\)[\s_]*", "", base): left-to-right scan; at each
-- position the class run is maximal (no class character can start the
-- literal, so no backtracking), and scanning resumes after the consumed
-- trailing run.  Structural fuel; one character is consumed per step, so
-- fuel = length suffices.
def subSourceDl : Nat → List Char → List Char
  | 0, s => s
  | _ + 1, [] => []
  | fuel + 1, c :: rest =>
    let s := c :: rest
    let w := s.takeWhile pySpaceUnd
    let r := s.drop w.length
    if startsWithChars sourceLit r then
      subSourceDl fuel ((r.drop sourceLit.length).dropWhile pySpaceUnd)
    else c :: subSourceDl fuel rest

def reSubSourceDl (s : List Char) : List Char := subSourceDl s.length s

-- re.sub(r"[_\-\s]+$", "", base): remove the maximal trailing run of
-- underscore/dash/whitespace (a trailing newline is itself in the class).
def trimTrailDl (s : List Char) : List Char :=
  (s.reverse.dropWhile isTrailSep).reverse

-- The REMOVE_SUFFIX cleanup of get_file_name (lines 164-174).
def cleanupFilenameDl (filename : List Char) : List Char :=
  let p := splitext filename
  trimTrailDl (reSubSourceDl p.1) ++ p.2

-- The collision-avoidance loop of get_file_name (lines 176-183): while the
-- path exists, increment the counter, re-split the CURRENT filename and
-- append the counter to its base.  folder is the set of existing names.
def collisionLoop (folder : List (List Char)) : Nat → List Char → Nat → List Char
  | 0, filename, _ => filename
  | fuel + 1, filename, counter =>
    if filename ∈ folder then
      let p := splitext filename
      collisionLoop folder fuel (p.1 ++ '_' :: natChars (counter + 1) ++ p.2) (counter + 1)
    else filename

-- get_file_name (lines 147-183).  headerName is the filename taken from a
-- Content-Disposition header (none or empty falls back to the URL's last
-- path segment); the folder.length + 1 fuel is provably never exhausted.
def get_file_name (headerName : Option (List Char)) (urlBasename : List Char)
    (folder : List (List Char)) : List Char :=
  let filename :=
    match headerName with
    | some n => if n = [] then urlBasename else n
    | none => urlBasename
  let filename := if REMOVE_SUFFIX then cleanupFilenameDl filename else filename
  collisionLoop folder (folder.length + 1) filename 0

-- ===================================================================
-- Count/Duration Reporter: clean_filename (lines 63-68)
-- ===================================================================

-- re.sub(r"\s*\(Source\)", "", filename): same scan as subSourceDl but
-- with plain whitespace before the literal and nothing consumed after it.
def subSourceWs : Nat → List Char → List Char
  | 0, s => s
  | _ + 1, [] => []
  | fuel + 1, c :: rest =>
    let s := c :: rest
    let w := s.takeWhile pySpace
    let r := s.drop w.length
    if startsWithChars sourceLit r then
      subSourceWs fuel (r.drop sourceLit.length)
    else c :: subSourceWs fuel rest

def reSubSourceWs (s : List Char) : List Char := subSourceWs s.length s

-- re.sub(r"_*\.mp4$", ".mp4", s): the $ anchor matches at the end of the
-- string or just before a single trailing newline; the effect is to delete
-- the run of underscores immediately preceding the terminal ".mp4".
def subTrailUndMp4Core (s : List Char) : List Char :=
  if endsWithChars mp4Lit s then
    ((s.take (s.length - 4)).reverse.dropWhile (fun c => c = '_')).reverse ++ mp4Lit
  else s

def reSubTrailUndMp4 (s : List Char) : List Char :=
  if endsWithChars ['\n'] s then subTrailUndMp4Core (s.take (s.length - 1)) ++ ['\n']
  else subTrailUndMp4Core s

def clean_filename (s : List Char) : List Char :=
  pyStrip (reSubTrailUndMp4 (reSubSourceWs s))

-- ===================================================================
-- Reporter configuration flags (lines 54, 76-78, 372)
-- ===================================================================

-- EXPORT_CSV = bool(getenv("EXPORT_CSV")): unset or empty is false, any
-- other string (uninterpreted) is true.
def export_csv_enabled (v : Option (List Char)) : Bool :=
  match v with
  | none => false
  | some s => ¬ s.isEmpty

-- FLAVOR_SIZE / FLAVOR_SOURCE_NAME prompts: input(...).strip() used as a
-- truth value.
def prompt_flag (answer : List Char) : Bool :=
  ¬ (pyStrip answer).isEmpty

-- ===================================================================
-- Count/Duration Reporter: date model and get_interval_ranges
-- (report-count-duration.py, lines 136-157)
-- ===================================================================

-- Python datetime.date: proleptic Gregorian calendar.  A date is a
-- (year, month, day) triple; its ordinal is datetime.date.toordinal
-- (0001-01-01 is day 1).

structure PyDate where
  year : Nat
  month : Nat
  day : Nat
deriving DecidableEq, Repr

def isLeap (y : Nat) : Bool :=
  (y % 4 = 0 && ¬ y % 100 = 0) || y % 400 = 0

def daysInYear (y : Nat) : Nat := if isLeap y then 366 else 365

def daysInMonth (y m : Nat) : Nat :=
  match m with
  | 1 => 31
  | 2 => if isLeap y then 29 else 28
  | 3 => 31
  | 4 => 30
  | 5 => 31
  | 6 => 30
  | 7 => 31
  | 8 => 31
  | 9 => 30
  | 10 => 31
  | 11 => 30
  | 12 => 31
  | _ => 0

-- Days in year y strictly before month m (so daysBeforeMonth y 1 = 0).
def daysBeforeMonth (y : Nat) : Nat → Nat
  | 0 => 0
  | m + 1 => daysBeforeMonth y m + daysInMonth y m

-- Days strictly before January 1 of year y (standard closed form; the
-- quotients satisfy (y-1)/4 ≥ (y-1)/100 so the Nat subtraction never
-- clamps).
def daysBeforeYear (y : Nat) : Nat :=
  (y - 1) * 365 + (y - 1) / 4 - (y - 1) / 100 + (y - 1) / 400

def toOrdinal (d : PyDate) : Nat :=
  daysBeforeYear d.year + daysBeforeMonth d.year d.month + d.day

def ValidDate (d : PyDate) : Prop :=
  1 ≤ d.year ∧ 1 ≤ d.month ∧ d.month ≤ 12 ∧ 1 ≤ d.day ∧ d.day ≤ daysInMonth d.year d.month

instance (d : PyDate) : Decidable (ValidDate d) := by
  unfold ValidDate; infer_instance

-- date.fromordinal: peel whole years, then whole months.  The year loop
-- runs once per year, so fuel n / 365 + 1 is enough (proved below).
def resolveYear (y n : Nat) : Nat → Nat × Nat
  | 0 => (y, n)
  | fuel + 1 =>
    if n ≤ daysInYear y then (y, n) else resolveYear (y + 1) (n - daysInYear y) fuel

def resolveMonth (y : Nat) (m n : Nat) : Nat → Nat × Nat
  | 0 => (m, n)
  | fuel + 1 =>
    if n ≤ daysInMonth y m then (m, n) else resolveMonth y (m + 1) (n - daysInMonth y m) fuel

def fromOrdinal (n : Nat) : PyDate :=
  let yr := resolveYear 1 n (n / 365 + 1)
  let md := resolveMonth yr.1 1 yr.2 12
  { year := yr.1, month := md.1, day := md.2 }

-- The body of get_interval_ranges' while-loop: the chunk-end date for the
-- current start date, per interval mode (1 = yearly, 2 = monthly,
-- 3 = weekly, 4 = daily); none models the ValueError raise.
def nextIntervalEnd (intervalType cur : Nat) : Option Nat :=
  match intervalType with
  | 1 =>
    let d := fromOrdinal cur
    some (toOrdinal { year := d.year, month := 12, day := 31 })
  | 2 =>
    -- (current.replace(day=28) + timedelta(days=4)).replace(day=1)
    --   - timedelta(days=1)
    let d := fromOrdinal cur
    let p := fromOrdinal (toOrdinal { year := d.year, month := d.month, day := 28 } + 4)
    some (toOrdinal { year := p.year, month := p.month, day := 1 } - 1)
  | 3 => some (cur + 6)
  | 4 => some cur
  | _ => none

-- The generator loop: while current ≤ end_date, yield
-- (current, min(next_date, end_date)) and continue from next_date + 1.
def intervalRangesAux (intervalType endD : Nat) : Nat → Nat → Option (List (Nat × Nat))
  | cur, fuel =>
    if endD < cur then some []
    else
      match fuel with
      | 0 => none
      | fuel + 1 =>
        match nextIntervalEnd intervalType cur with
        | none => none
        | some nd =>
          match intervalRangesAux intervalType endD (nd + 1) fuel with
          | none => none
          | some rest => some ((cur, min nd endD) :: rest)

def get_interval_ranges (startD endD intervalType : Nat) : Option (List (Nat × Nat)) :=
  intervalRangesAux intervalType endD startD (endD + 1 - startD)

-- chunksCover s e l: the chunks in l are exactly a contiguous,
-- non-overlapping, start ≤ end partition of [s, e] (so l = [] iff the
-- range is empty, i.e. s = e + 1).
def chunksCover : Nat → Nat → List (Nat × Nat) → Bool
  | s, e, [] => s = e + 1
  | s, e, (a, b) :: rest => a = s && a ≤ b && b ≤ e && chunksCover (b + 1) e rest

-- Total number of matched entries on the first m pages starting at page pi.
def pageLen (platform : Nat → PageResult) (i : Nat) : Nat :=
  match platform i with
  | .pages es => es.length
  | .kalturaError _ => 0

def pagesTotal (platform : Nat → PageResult) (pi m : Nat) : Nat :=
  Finset.sum (Finset.range m) (fun j => pageLen platform (pi + j))

-- Conditions under which a second cleanup pass is the identity (used to
-- state the corrected idempotence claim): the cleaned name has no
-- underscore immediately before its terminal ".mp4" ...
def noTrailUnderscoreMp4 (s : List Char) : Bool :=
  if endsWithChars mp4Lit s then
    match (s.take (s.length - 4)).reverse with
    | [] => true
    | c :: _ => ¬ c = '_'
  else true

-- ... and, for the Downloader, the cleaned name's base neither ends in a
-- separator character.
def noTrailSepBase (s : List Char) : Bool :=
  match (splitext s).1.reverse with
  | [] => true
  | c :: _ => ¬ isTrailSep c

-- ===================================================================
-- Helper lemmas
-- ===================================================================

theorem dropWhile_head_false (p : Char → Bool) :
    ∀ l : List Char, l.dropWhile p = [] ∨
      ∃ c t, l.dropWhile p = c :: t ∧ p c = false := by
  intro l
  induction l with
  | nil => left; rfl
  | cons c t ih =>
    by_cases h : p c
    · simpa [List.dropWhile_cons, h] using ih
    · right; exact ⟨c, t, by simp [List.dropWhile_cons, h], by simpa using h⟩

theorem dropWhile_idem (p : Char → Bool) (l : List Char) :
    (l.dropWhile p).dropWhile p = l.dropWhile p := by
  rcases dropWhile_head_false p l with h | ⟨c, t, h, hc⟩
  · rw [h]; rfl
  · rw [h, List.dropWhile_cons, hc]; simp

theorem dropWhile_is_suffix (p : Char → Bool) :
    ∀ l : List Char, ∃ w, w ++ l.dropWhile p = l := by
  intro l
  induction l with
  | nil => exact ⟨[], rfl⟩
  | cons c t ih =>
    by_cases h : p c
    · rcases ih with ⟨w, hw⟩
      exact ⟨c :: w, by simp [List.dropWhile_cons, h, hw]⟩
    · exact ⟨[], by simp [List.dropWhile_cons, h]⟩

theorem pyStrip_reverse (t : List Char) :
    (pyStrip t).reverse = (t.dropWhile pySpace).reverse.dropWhile pySpace := by
  simp [pyStrip]

theorem pyStrip_idem (t : List Char) : pyStrip (pyStrip t) = pyStrip t := by
  have h1 : (pyStrip t).dropWhile pySpace = pyStrip t := by
    rcases dropWhile_is_suffix pySpace ((t.dropWhile pySpace).reverse) with ⟨w, hw⟩
    have hrev : pyStrip t = ((t.dropWhile pySpace).reverse.dropWhile pySpace).reverse := rfl
    rcases dropWhile_head_false pySpace t with h | ⟨c, s, h, hc⟩
    · have : t.dropWhile pySpace = [] := h
      rw [hrev, this]; rfl
    · -- pyStrip t is (reverse of) a suffix of (c :: s).reverse, hence a
      -- prefix of c :: s; if nonempty its head is c with pySpace c false.
      rw [hrev, h] at *
      rcases dropWhile_is_suffix pySpace ((c :: s).reverse) with ⟨w2, hw2⟩
      have hpre : ((c :: s).reverse.dropWhile pySpace).reverse ++ w2.reverse = c :: s := by
        have := congrArg List.reverse hw2
        simpa using this
      rcases hd : ((c :: s).reverse.dropWhile pySpace).reverse with _ | ⟨c2, t2⟩
      · simp
      · rw [hd] at hpre
        have hc2 : c2 = c := by
          have := hpre
          simp at this
          exact this.1
      -- head of the stripped list is c, which fails pySpace
        rw [List.dropWhile_cons, hc2, hc]
        simp
  have h2 : ((pyStrip t).reverse.dropWhile pySpace) = (pyStrip t).reverse := by
    rw [pyStrip_reverse]
    exact dropWhile_idem pySpace _
  show ((((pyStrip t).dropWhile pySpace).reverse).dropWhile pySpace).reverse = pyStrip t
  rw [h1, h2]
  simp

theorem startsWith_decomp (pat : List Char) :
    ∀ t : List Char, startsWithChars pat t = true → pat ++ t.drop pat.length = t := by
  induction pat with
  | nil => intro t _; simp
  | cons a as ih =>
    intro t h
    cases t with
    | nil => simp [startsWithChars] at h
    | cons b bs =>
      simp only [startsWithChars, Bool.and_eq_true, decide_eq_true_eq] at h
      obtain ⟨rfl, h2⟩ := h
      simpa using ih bs h2

theorem startsWith_length_le (pat : List Char) :
    ∀ t : List Char, startsWithChars pat t = true → pat.length ≤ t.length := by
  induction pat with
  | nil => intro t _; simp
  | cons a as ih =>
    intro t h
    cases t with
    | nil => simp [startsWithChars] at h
    | cons b bs =>
      simp only [startsWithChars, Bool.and_eq_true] at h
      have := ih bs h.2
      simpa using this

-- endsWithChars suf s = true yields the decomposition s = front ++ suf
-- with front = s.take (s.length - suf.length).
theorem endsWith_decomp (suf s : List Char) (h : endsWithChars suf s = true) :
    s.take (s.length - suf.length) ++ suf = s := by
  unfold endsWithChars at h
  have hd := startsWith_decomp suf.reverse s.reverse h
  have hlen : suf.length ≤ s.length := by
    have := startsWith_length_le suf.reverse s.reverse h
    simpa using this
  have := congrArg List.reverse hd
  simp only [List.reverse_append, List.reverse_reverse] at this
  -- this : (s.reverse.drop suf.reverse.length).reverse ++ suf = s
  have hrt : (s.reverse.drop suf.reverse.length).reverse = s.take (s.length - suf.length) := by
    have h2 : (s.reverse.drop suf.length).reverse = s.take (s.length - suf.length) := by
      apply List.reverse_injective
      simp only [List.reverse_reverse, List.reverse_take]
      congr 1
      omega
    simpa using h2
  rwa [hrt] at this

theorem contains_drop_false (lit : List Char) :
    ∀ (s : List Char) (k : Nat), containsLit lit s = false →
      startsWithChars lit (s.drop k) = false := by
  intro s
  induction s with
  | nil =>
    intro k h
    simpa [containsLit] using h
  | cons c rest ih =>
    intro k h
    simp only [containsLit, Bool.or_eq_false_iff] at h
    cases k with
    | zero => exact h.1
    | succ k => exact ih k h.2

theorem subSourceWs_id :
    ∀ (fuel : Nat) (s : List Char), s.length ≤ fuel →
      containsLit sourceLit s = false → subSourceWs fuel s = s := by
  intro fuel
  induction fuel with
  | zero =>
    intro s hs _
    cases s with
    | nil => rfl
    | cons c t => simp at hs
  | succ fuel ih =>
    intro s hs h
    cases s with
    | nil => rfl
    | cons c rest =>
      have hns : startsWithChars sourceLit ((c :: rest).drop ((c :: rest).takeWhile pySpace).length) = false :=
        contains_drop_false sourceLit (c :: rest) _ h
      have hrest : containsLit sourceLit rest = false := by
        simp only [containsLit, Bool.or_eq_false_iff] at h
        exact h.2
      simp only [subSourceWs, hns]
      simp only [List.length_cons] at hs
      rw [ih rest (by omega) hrest]
      simp

theorem subSourceDl_id :
    ∀ (fuel : Nat) (s : List Char), s.length ≤ fuel →
      containsLit sourceLit s = false → subSourceDl fuel s = s := by
  intro fuel
  induction fuel with
  | zero =>
    intro s hs _
    cases s with
    | nil => rfl
    | cons c t => simp at hs
  | succ fuel ih =>
    intro s hs h
    cases s with
    | nil => rfl
    | cons c rest =>
      have hns : startsWithChars sourceLit ((c :: rest).drop ((c :: rest).takeWhile pySpaceUnd).length) = false :=
        contains_drop_false sourceLit (c :: rest) _ h
      have hrest : containsLit sourceLit rest = false := by
        simp only [containsLit, Bool.or_eq_false_iff] at h
        exact h.2
      simp only [subSourceDl, hns]
      simp only [List.length_cons] at hs
      rw [ih rest (by omega) hrest]
      simp

theorem splitext_join (s : List Char) : (splitext s).1 ++ (splitext s).2 = s := by
  simp only [splitext]
  split
  · simp
  · split
    · simp
    · simp

theorem reSubSourceWs_id (s : List Char) (h : containsLit sourceLit s = false) :
    reSubSourceWs s = s :=
  subSourceWs_id s.length s (Nat.le_refl _) h

theorem reSubSourceDl_id (s : List Char) (h : containsLit sourceLit s = false) :
    reSubSourceDl s = s :=
  subSourceDl_id s.length s (Nat.le_refl _) h

theorem pyStrip_no_newline (t : List Char) :
    endsWithChars ['\n'] (pyStrip t) = false := by
  unfold endsWithChars
  rw [pyStrip_reverse]
  rcases dropWhile_head_false pySpace ((t.dropWhile pySpace).reverse) with h | ⟨c, s, h, hc⟩
  · rw [h]; rfl
  · rw [h]
    simp only [List.reverse_cons, List.reverse_nil, List.nil_append, startsWithChars,
      Bool.and_true, decide_eq_false_iff_not]
    intro hcontra
    rw [← hcontra] at hc
    simp [pySpace] at hc

theorem subTrailUndMp4Core_id (s : List Char) (h : noTrailUnderscoreMp4 s = true) :
    subTrailUndMp4Core s = s := by
  unfold noTrailUnderscoreMp4 at h
  unfold subTrailUndMp4Core
  by_cases he : endsWithChars mp4Lit s = true
  · rw [if_pos he] at h ⊢
    have hdec : s.take (s.length - 4) ++ mp4Lit = s := by
      have := endsWith_decomp mp4Lit s he
      simpa using this
    rcases hrev : (s.take (s.length - 4)).reverse with _ | ⟨c, tl⟩
    · have hnil : s.take (s.length - 4) = [] := by
        have := congrArg List.reverse hrev
        simpa using this
      simp only [List.dropWhile_nil, List.reverse_nil, List.nil_append]
      rw [hnil] at hdec
      exact hdec
    · rw [hrev] at h
      have h2 : ¬ c = '_' := by simpa using h
      rw [List.dropWhile_cons, if_neg (by simpa using h2)]
      have hback : (c :: tl).reverse = s.take (s.length - 4) := by
        rw [← hrev, List.reverse_reverse]
      rw [hback, hdec]
  · rw [if_neg he]

theorem trimTrailDl_id (s : List Char)
    (h : ∀ c tl, s.reverse = c :: tl → isTrailSep c = false) : trimTrailDl s = s := by
  unfold trimTrailDl
  rcases hrev : s.reverse with _ | ⟨c, tl⟩
  · simp only [List.dropWhile_nil, List.reverse_nil]
    have := congrArg List.reverse hrev
    simpa using this.symm
  · rw [List.dropWhile_cons, h c tl hrev]
    simp only [Bool.false_eq_true, if_false]
    have := congrArg List.reverse hrev
    simpa using this.symm

theorem clean_filename_idem (x : List Char)
    (h1 : containsLit sourceLit (clean_filename x) = false)
    (h2 : noTrailUnderscoreMp4 (clean_filename x) = true) :
    clean_filename (clean_filename x) = clean_filename x := by
  show pyStrip (reSubTrailUndMp4 (reSubSourceWs (clean_filename x))) = clean_filename x
  rw [reSubSourceWs_id _ h1]
  unfold reSubTrailUndMp4
  have hnl : endsWithChars ['\n'] (clean_filename x) = false := by
    show endsWithChars ['\n'] (pyStrip (reSubTrailUndMp4 (reSubSourceWs x))) = false
    exact pyStrip_no_newline _
  rw [if_neg (by simp [hnl])]
  rw [subTrailUndMp4Core_id _ h2]
  show pyStrip (pyStrip (reSubTrailUndMp4 (reSubSourceWs x))) = clean_filename x
  exact pyStrip_idem _

theorem cleanupFilenameDl_idem (y : List Char)
    (h1 : containsLit sourceLit (splitext (cleanupFilenameDl y)).1 = false)
    (h2 : noTrailSepBase (cleanupFilenameDl y) = true) :
    cleanupFilenameDl (cleanupFilenameDl y) = cleanupFilenameDl y := by
  show trimTrailDl (reSubSourceDl (splitext (cleanupFilenameDl y)).1) ++
      (splitext (cleanupFilenameDl y)).2 = cleanupFilenameDl y
  have hsep : ∀ c tl, (splitext (cleanupFilenameDl y)).1.reverse = c :: tl →
      isTrailSep c = false := by
    intro c tl hc
    unfold noTrailSepBase at h2
    rw [hc] at h2
    simpa using h2
  rw [reSubSourceDl_id _ h1, trimTrailDl_id _ hsep]
  exact splitext_join _

-- ===================================================================
-- Claim theorems
-- ===================================================================

/-- Claim C4 (supporting evaluation): for an entry whose category-entry
association exists but is not active (status 1), the Remove step does treat
removal as trivially satisfied (ok, no delete call, warning logged), but the
post-removal verification still sees the association, so the workflow logs a
failure and never attempts the re-add -- contradicting the claimed (and
intended, per the source comment) behaviour of proceeding to the re-add. -/
theorem claim_C4_divergence :
    process_entry { assoc := some 1 } false false =
      { outcome := .removalNotConfirmed, warnedSkip := true, deleteCalled := false,
        addCalled := false, finalState := { assoc := some 1 } } ∧
    (remove_from_category { assoc := some 1 } false).ok = true ∧
    (remove_from_category { assoc := some 1 } false).deleteCalled = false ∧
    (remove_from_category { assoc := some 1 } false).warnedSkip = true ∧
    (process_entry { assoc := some 1 } false false).addCalled = false := by
  decide

/-- Claim C7: whenever the Remove step reports success but the post-removal
verification query still reports the association as present, the workflow
records the failure, never calls the add step for that entry, and the run
continues with the remaining entry ids unaffected. -/
theorem claim_C7_verify_removal_short_circuit :
    ∀ (st : CatState) (d a : Bool),
      (remove_from_category st d).ok = true →
      entry_in_category (remove_from_category st d).state = true →
      (process_entry st d a).outcome = .removalNotConfirmed ∧
      (process_entry st d a).addCalled = false ∧
      ∀ rest, run_entries ((st, d, a) :: rest) = process_entry st d a :: run_entries rest := by
  intro st d a hok hpresent
  refine ⟨?_, ?_, ?_⟩
  · unfold process_entry
    rw [if_neg (by simp [hok]), if_pos hpresent]
  · unfold process_entry
    rw [if_neg (by simp [hok]), if_pos hpresent]
  · intro rest
    rfl

theorem claim_C7_witness :
    (process_entry { assoc := some 1 } false false).outcome = .removalNotConfirmed ∧
    (process_entry { assoc := some 1 } false false).addCalled = false ∧
    ∀ rest, run_entries (({ assoc := some 1 }, false, false) :: rest) =
      process_entry { assoc := some 1 } false false :: run_entries rest :=
  claim_C7_verify_removal_short_circuit { assoc := some 1 } false false
    (by decide) (by decide)

/-- Claim C5 counterexample: neither cleanup function is idempotent on every
input -- removing an inner "(Source)" can splice a new "(Source)" together,
which a second pass then removes. -/
theorem claim_C5_counterexample :
    clean_filename (clean_filename (("(Sou(Source)rce)").toList)) ≠
      clean_filename (("(Sou(Source)rce)").toList) ∧
    cleanupFilenameDl (cleanupFilenameDl (("(Sou(Source)rce)x.mp4").toList)) ≠
      cleanupFilenameDl (("(Sou(Source)rce)x.mp4").toList) := by
  decide

/-- Claim C5 (amended): the cleanup transformations are idempotent on every
input whose once-cleaned form contains no "(Source)" occurrence and has no
underscore run immediately before its terminal ".mp4" (Reporter), resp.
whose cleaned base contains no "(Source)" and no trailing
underscore/dash/whitespace (Downloader); the concrete example behaves as
claimed for both functions. -/
theorem claim_C5_cleanup_idempotent :
    ∀ x y : List Char,
      containsLit sourceLit (clean_filename x) = false →
      noTrailUnderscoreMp4 (clean_filename x) = true →
      containsLit sourceLit (splitext (cleanupFilenameDl y)).1 = false →
      noTrailSepBase (cleanupFilenameDl y) = true →
      clean_filename (clean_filename x) = clean_filename x ∧
      cleanupFilenameDl (cleanupFilenameDl y) = cleanupFilenameDl y ∧
      clean_filename (("Lecture_1_(Source).mp4").toList) = ("Lecture_1.mp4").toList ∧
      clean_filename (("Lecture_1.mp4").toList) = ("Lecture_1.mp4").toList ∧
      cleanupFilenameDl (("Lecture_1_(Source).mp4").toList) = ("Lecture_1.mp4").toList ∧
      cleanupFilenameDl (("Lecture_1.mp4").toList) = ("Lecture_1.mp4").toList := by
  intro x y h1 h2 h3 h4
  exact ⟨clean_filename_idem x h1 h2, cleanupFilenameDl_idem y h3 h4,
    by decide, by decide, by decide, by decide⟩

theorem claim_C5_witness :
    clean_filename (clean_filename (("Lecture_1_(Source).mp4").toList)) =
      clean_filename (("Lecture_1_(Source).mp4").toList) ∧
    cleanupFilenameDl (cleanupFilenameDl (("Lecture_1_(Source).mp4").toList)) =
      cleanupFilenameDl (("Lecture_1_(Source).mp4").toList) := by
  have h := claim_C5_cleanup_idempotent (("Lecture_1_(Source).mp4").toList)
    (("Lecture_1_(Source).mp4").toList) (by decide) (by decide) (by decide) (by decide)
  exact ⟨h.1, h.2.1⟩

/-- Claim C9: the grand totals are computed exactly as claimed -- total
minutes is the sum over chunks of round(seconds/60, 2); hours, days, months
and years divide successively by 60, 24, 30.4375 and 365.25; total flavor
gigabytes is the sum of the per-chunk (rounded) megabyte values divided by
1024; and chunk durations 3600 s and 7200 s give 180 minutes, 3 hours and
0.125 days. -/
theorem claim_C9_totals_arithmetic :
    (∀ ds : List ℚ,
      totalMinutes ds = (ds.map (fun d => round2 (d / 60))).sum ∧
      totalHours ds = totalMinutes ds / 60 ∧
      totalDays ds = totalHours ds / 24 ∧
      totalMonths ds = totalDays ds / (30.4375 : ℚ) ∧
      totalYears ds = totalDays ds / (365.25 : ℚ)) ∧
    (∀ kbs : List ℚ,
      totalFlavorGB kbs = (kbs.map (fun kb => round2 (kb / 1024))).sum / 1024) ∧
    totalMinutes [3600, 7200] = 180 ∧
    totalHours [3600, 7200] = 3 ∧
    totalDays [3600, 7200] = (0.125 : ℚ) ∧
    totalMonths [3600, 7200] = (0.125 : ℚ) / (30.4375 : ℚ) ∧
    totalYears [3600, 7200] = (0.125 : ℚ) / (365.25 : ℚ) := by
  have hmin : totalMinutes [3600, 7200] = 180 := by
    norm_num [totalMinutes, chunkMinutes, round2, roundHalfEven]
  refine ⟨fun ds => ⟨rfl, rfl, rfl, rfl, rfl⟩, fun kbs => rfl, hmin, ?_, ?_, ?_, ?_⟩
  · rw [totalHours, hmin]; norm_num
  · rw [totalDays, totalHours, hmin]; norm_num
  · rw [totalMonths, totalDays, totalHours, hmin]; norm_num
  · rw [totalYears, totalDays, totalHours, hmin]; norm_num

/-- Claim C10 counterexample: the prompts do not follow the plain
non-emptiness rule -- the answer " " is a non-empty string, yet it is
stripped to empty and disables the enrichment path. -/
theorem claim_C10_counterexample :
    prompt_flag ((" ").toList) = false ∧ (" ").toList ≠ ([] : List Char) := by
  decide

/-- Claim C10 (amended): CSV export happens iff EXPORT_CSV is set to a
non-empty string (any value, including "False" and "0"); the interactive
flavor-size and source-filename prompts enable their path iff the answer is
non-empty after stripping surrounding whitespace (so "no" enables, while a
whitespace-only answer does not). -/
theorem claim_C10_truthiness :
    (∀ v : Option (List Char),
      export_csv_enabled v = true ↔ ∃ s, v = some s ∧ s ≠ []) ∧
    (∀ s : List Char, prompt_flag s = true ↔ pyStrip s ≠ []) ∧
    export_csv_enabled (some (("False").toList)) = true ∧
    export_csv_enabled (some (("0").toList)) = true ∧
    export_csv_enabled (some (("no").toList)) = true ∧
    export_csv_enabled none = false ∧
    export_csv_enabled (some []) = false ∧
    prompt_flag (("no").toList) = true ∧
    prompt_flag ((" ").toList) = false := by
  refine ⟨?_, ?_, by decide, by decide, by decide, by decide, by decide, by decide, by decide⟩
  · intro v
    cases v with
    | none => simp [export_csv_enabled]
    | some s => simp [export_csv_enabled, List.isEmpty_iff]
  · intro s
    simp [prompt_flag, List.isEmpty_iff]

/-- Claim C6: entries without a mediaType attribute are excluded from the
processing set even when matched; an entry with media type 2 (image) takes
its direct downloadUrl, independently of the flavor-asset oracles (the
lookup is bypassed); any other media type resolves through the original
flavor asset's URL. -/
theorem claim_C6_media_type_routing :
    (∀ (entries : List PyEntry) (e : PyEntry),
      e ∈ filter_media_entries entries ↔ e ∈ entries ∧ e.mediaType.isSome = true) ∧
    (∀ (entry d : PyEntry) (fr fr2 : Option (List FlavorAsset))
        (gu gu2 : List Char → Option (List Char)),
      entry.mediaType.isSome = true → d.mediaType = some 2 →
      get_download_url entry (some d) fr gu = d.downloadUrl ∧
      get_download_url entry (some d) fr gu = get_download_url entry (some d) fr2 gu2) ∧
    (∀ (entry d : PyEntry) (fr : Option (List FlavorAsset))
        (gu : List Char → Option (List Char)) (mt : Nat),
      entry.mediaType.isSome = true → d.mediaType = some mt → mt ≠ 2 →
      get_download_url entry (some d) fr gu = get_flavor_download_url fr gu) := by
  refine ⟨?_, ?_, ?_⟩
  · intro entries e
    simp [filter_media_entries, List.mem_filter]
  · intro entry d fr fr2 gu gu2 hent hd
    rcases Option.isSome_iff_exists.mp hent with ⟨v, hv⟩
    constructor <;> simp [get_download_url, hv, hd]
  · intro entry d fr gu mt hent hd hmt
    rcases Option.isSome_iff_exists.mp hent with ⟨v, hv⟩
    simp [get_download_url, hv, hd, hmt]

theorem claim_C6_witness :
    get_download_url { eid := [], mediaType := some 1, downloadUrl := none }
      (some { eid := [], mediaType := some 2, downloadUrl := some (('u') :: []) })
      none (fun _ => none) = some (('u') :: []) ∧
    get_download_url { eid := [], mediaType := some 1, downloadUrl := none }
      (some { eid := [], mediaType := some 1, downloadUrl := some (('u') :: []) })
      none (fun _ => none) = get_flavor_download_url none (fun _ => none) := by
  constructor
  · exact (claim_C6_media_type_routing.2.1 _ _ none none (fun _ => none) (fun _ => none)
      (by decide) (by decide)).1
  · exact claim_C6_media_type_routing.2.2 _ _ none (fun _ => none) 1 (by decide) (by decide)
      (by decide)

theorem natChars_ne_nil (n : Nat) : natChars n ≠ [] := by
  unfold natChars natDigits
  split <;> simp

theorem filter_length_mono {α : Type} (p q : α → Bool)
    (hpq : ∀ x, q x = true → p x = true) :
    ∀ l : List α, (l.filter q).length ≤ (l.filter p).length := by
  intro l
  induction l with
  | nil => simp
  | cons b t ih =>
    by_cases hq : q b = true
    · rw [List.filter_cons_of_pos hq, List.filter_cons_of_pos (hpq b hq)]
      simpa using ih
    · rw [List.filter_cons_of_neg (by simpa using hq)]
      by_cases hp : p b = true
      · rw [List.filter_cons_of_pos hp]
        simp only [List.length_cons]
        omega
      · rw [List.filter_cons_of_neg (by simpa using hp)]
        exact ih

theorem filter_length_lt {α : Type} (p q : α → Bool)
    (hpq : ∀ x, q x = true → p x = true) :
    ∀ (l : List α) (a : α), a ∈ l → p a = true → q a = false →
      (l.filter q).length < (l.filter p).length := by
  intro l
  induction l with
  | nil => intro a ha; simp at ha
  | cons b t ih =>
    intro a ha hpa hqa
    rcases List.mem_cons.mp ha with rfl | hat
    · rw [List.filter_cons_of_pos hpa, List.filter_cons_of_neg (by simp [hqa])]
      have := filter_length_mono p q hpq t
      simp only [List.length_cons]
      omega
    · have hlt := ih a hat hpa hqa
      by_cases hq : q b = true
      · rw [List.filter_cons_of_pos hq, List.filter_cons_of_pos (hpq b hq)]
        simp only [List.length_cons]
        omega
      · rw [List.filter_cons_of_neg (by simpa using hq)]
        by_cases hp : p b = true
        · rw [List.filter_cons_of_pos hp]
          simp only [List.length_cons]
          omega
        · rw [List.filter_cons_of_neg (by simpa using hp)]
          exact hlt

theorem collisionLoop_not_mem (folder : List (List Char)) :
    ∀ (fuel : Nat) (filename : List Char) (counter : Nat),
      (folder.filter (fun x => decide (filename.length ≤ x.length))).length < fuel →
      collisionLoop folder fuel filename counter ∉ folder := by
  intro fuel
  induction fuel with
  | zero => intro filename counter h; omega
  | succ fuel ih =>
    intro filename counter h
    by_cases hmem : filename ∈ folder
    · rw [collisionLoop, if_pos hmem]
      set nxt := (splitext filename).1 ++ '_' :: natChars (counter + 1) ++ (splitext filename).2 with hnxt
      have hsplit : (splitext filename).1.length + (splitext filename).2.length = filename.length := by
        have := congrArg List.length (splitext_join filename)
        simpa using this
      have hdig : 1 ≤ (natChars (counter + 1)).length := by
        have := natChars_ne_nil (counter + 1)
        cases hn : natChars (counter + 1) with
        | nil => exact absurd hn this
        | cons c t => simp [hn]
      have hlen : filename.length < nxt.length := by
        rw [hnxt]
        simp only [List.length_append, List.length_cons]
        omega
      have hdrop := filter_length_lt (fun x => decide (filename.length ≤ x.length))
        (fun x => decide (nxt.length ≤ x.length))
        (by intro x hx; simp only [decide_eq_true_eq] at hx ⊢; omega)
        folder filename hmem (by simp) (by simp; omega)
      exact ih nxt (counter + 1) (by omega)
    · rw [collisionLoop, if_neg hmem]
      exact hmem

theorem collisionLoop_fresh (folder : List (List Char)) (f : List Char) (c : Nat) :
    collisionLoop folder (folder.length + 1) f c ∉ folder :=
  collisionLoop_not_mem folder _ f c
    (Nat.lt_succ_of_le (List.length_filter_le _ _))

/-- Claim C2 counterexample: with video.mp4 and video_1.mp4 already present,
deriving a filename for another video.mp4 does not yield video_2.mp4 (the
loop re-splits the updated name, so suffixes accumulate). -/
theorem claim_C2_counterexample :
    get_file_name (some (("video.mp4").toList)) []
      [("video.mp4").toList, ("video_1.mp4").toList] ≠ ("video_2.mp4").toList := by
  decide

/-- Claim C2 (amended): on a collision the loop appends the next counter to
the base of the previous candidate, so earlier suffixes accumulate: with
video.mp4 and video_1.mp4 present, another video.mp4 is stored as
video_1_2.mp4; and for any folder contents the derived name is always absent
from the folder. -/
theorem claim_C2_collision_avoidance :
    (∀ (h : Option (List Char)) (u : List Char) (folder : List (List Char)),
      get_file_name h u folder ∉ folder) ∧
    get_file_name (some (("video.mp4").toList)) []
      [("video.mp4").toList, ("video_1.mp4").toList] = ("video_1_2.mp4").toList := by
  constructor
  · intro h u folder
    exact collisionLoop_fresh folder _ 0
  · decide

theorem pagesTotal_succ (pl : Nat → PageResult) (pi m : Nat) :
    pagesTotal pl pi (m + 1) = pageLen pl pi + pagesTotal pl (pi + 1) m := by
  unfold pagesTotal
  rw [Finset.sum_range_succ']
  simp only [Nat.add_zero]
  rw [Nat.add_comm]
  congr 1
  apply Finset.sum_congr rfl
  intro j _
  congr 1
  omega

theorem fetchLoop_max_matches (pl : Nat → PageResult) (fse : Bool)
    (pi c d f fuel : Nat) (hfuel : 1 ≤ fuel)
    (herr : pl pi = .kalturaError maxMatchesCode) :
    fetchLoop pl fse pi c d f fuel = (.exit1 .exceededGuidance, [pi]) := by
  cases fuel with
  | zero => omega
  | succ fuel => simp [fetchLoop, herr]

theorem fetchLoop_truncation_step (pl : Nat → PageResult) (fse : Bool)
    (pi c d f fuel : Nat) (es : List RCEntry) (hfuel : 1 ≤ fuel)
    (hp : pl pi = .pages es) (hne : es ≠ []) (hcnt : 10000 ≤ c + es.length) :
    fetchLoop pl fse pi c d f fuel = (.exit1 .truncationWarning, [pi]) := by
  cases fuel with
  | zero => omega
  | succ fuel =>
    cases es with
    | nil => exact absurd rfl hne
    | cons e t =>
      simp only [fetchLoop, hp]
      rw [if_pos (by simpa using hcnt)]

theorem fetchLoop_truncation (pl : Nat → PageResult) (fse : Bool) :
    ∀ (m pi c d f fuel : Nat),
      (∀ j, j < m → ∃ es, pl (pi + j) = .pages es ∧ es ≠ []) →
      c < 10000 → 10000 ≤ c + pagesTotal pl pi m → m ≤ fuel →
      (fetchLoop pl fse pi c d f fuel).1 = .exit1 .truncationWarning := by
  intro m
  induction m with
  | zero =>
    intro pi c d f fuel _ hc hsum _
    simp only [pagesTotal, Finset.range_zero, Finset.sum_empty] at hsum
    omega
  | succ m ih =>
    intro pi c d f fuel hpages hc hsum hfuel
    obtain ⟨es, hp, hne⟩ := hpages 0 (by omega)
    rw [Nat.add_zero] at hp
    by_cases hcross : 10000 ≤ c + es.length
    · rw [fetchLoop_truncation_step pl fse pi c d f fuel es (by omega) hp hne hcross]
    · cases fuel with
      | zero => omega
      | succ fuel =>
        cases es with
        | nil => exact absurd rfl hne
        | cons e t =>
          simp only [fetchLoop, hp]
          rw [if_neg (by simpa using hcross)]
          apply ih (pi + 1)
          · intro j hj
            obtain ⟨es2, hp2, hne2⟩ := hpages (j + 1) (by omega)
            exact ⟨es2, by rw [show pi + 1 + j = pi + (j + 1) from by omega]; exact hp2, hne2⟩
          · simpa using hcross
          · rw [pagesTotal_succ] at hsum
            have hlen : pageLen pl pi = (e :: t).length := by
              simp [pageLen, hp]
            rw [hlen] at hsum
            omega
          · omega

theorem fetchLoop_trace_ge (pl : Nat → PageResult) (fse : Bool) :
    ∀ (fuel pi c d f x : Nat), x ∈ (fetchLoop pl fse pi c d f fuel).2 → pi ≤ x := by
  intro fuel
  induction fuel with
  | zero => intro pi c d f x hx; simp [fetchLoop] at hx
  | succ fuel ih =>
    intro pi c d f x hx
    rcases hp : pl pi with es | code
    · cases es with
      | nil =>
        simp only [fetchLoop, hp] at hx
        simp at hx
        omega
      | cons e t =>
        simp only [fetchLoop, hp] at hx
        by_cases hcross : 10000 ≤ c + (e :: t).length
        · rw [if_pos (by simpa using hcross)] at hx
          simp at hx
          omega
        · rw [if_neg (by simpa using hcross)] at hx
          simp only [List.mem_cons] at hx
          rcases hx with rfl | hx
          · omega
          · have := ih (pi + 1) _ _ _ x hx
            omega
    · simp only [fetchLoop, hp] at hx
      by_cases hcode : code = maxMatchesCode
      · rw [if_pos hcode] at hx
        simp at hx
        omega
      · rw [if_neg hcode] at hx
        simp at hx
        omega

theorem fetchLoop_trace_nodup (pl : Nat → PageResult) (fse : Bool) :
    ∀ (fuel pi c d f : Nat), (fetchLoop pl fse pi c d f fuel).2.Nodup := by
  intro fuel
  induction fuel with
  | zero => intro pi c d f; simp [fetchLoop]
  | succ fuel ih =>
    intro pi c d f
    rcases hp : pl pi with es | code
    · cases es with
      | nil => simp [fetchLoop, hp]
      | cons e t =>
        simp only [fetchLoop, hp]
        by_cases hcross : 10000 ≤ c + (e :: t).length
        · rw [if_pos (by simpa using hcross)]
          simp
        · rw [if_neg (by simpa using hcross)]
          refine List.nodup_cons.mpr ⟨?_, ih (pi + 1) _ _ _⟩
          intro hmem
          have := fetchLoop_trace_ge pl fse fuel (pi + 1) _ _ _ pi hmem
          omega
    · simp only [fetchLoop, hp]
      by_cases hcode : code = maxMatchesCode
      · rw [if_pos hcode]; simp
      · rw [if_neg hcode]; simp

/-- Claim C3: in the chunk query loop, a QUERY_EXCEEDED_MAX_MATCHES_ALLOWED
error makes the tool print the narrow-the-interval guidance and exit with
status 1, querying the failing page exactly once and issuing no further
query (no retry); and whenever pagination accumulates 10000 or more matched
entries across nonempty pages, the loop exits with status 1 printing the
truncation warning. -/
theorem claim_C3_capacity_exits :
    (∀ (pl : Nat → PageResult) (fse : Bool) (pi c d f fuel : Nat),
      1 ≤ fuel → pl pi = .kalturaError maxMatchesCode →
      fetchLoop pl fse pi c d f fuel = (.exit1 .exceededGuidance, [pi])) ∧
    (∀ (pl : Nat → PageResult) (fse : Bool) (fuel : Nat),
      1 ≤ fuel → pl 1 = .kalturaError maxMatchesCode →
      fetch_entries_for_interval pl fse fuel = (.exit1 .exceededGuidance, [1])) ∧
    (∀ (pl : Nat → PageResult) (fse : Bool) (m fuel : Nat),
      (∀ j, j < m → ∃ es, pl (1 + j) = .pages es ∧ es ≠ []) →
      10000 ≤ pagesTotal pl 1 m → m ≤ fuel →
      (fetch_entries_for_interval pl fse fuel).1 = .exit1 .truncationWarning) := by
  refine ⟨fetchLoop_max_matches, ?_, ?_⟩
  · intro pl fse fuel hfuel herr
    exact fetchLoop_max_matches pl fse 1 0 0 0 fuel hfuel herr
  · intro pl fse m fuel hpages hsum hfuel
    exact fetchLoop_truncation pl fse m 1 0 0 0 fuel hpages (by omega) (by omega) hfuel

theorem claim_C3_witness :
    fetch_entries_for_interval (fun _ => PageResult.kalturaError maxMatchesCode) false 1 =
      (.exit1 .exceededGuidance, [1]) ∧
    (fetch_entries_for_interval
      (fun i => if i ≤ 2 then PageResult.pages (List.replicate 5000 { duration := none, flavorKB := 0 })
        else PageResult.pages []) false 2).1 = .exit1 .truncationWarning := by
  constructor
  · exact claim_C3_capacity_exits.2.1 _ false 1 (by omega) rfl
  · have hrep : (List.replicate 5000 ({ duration := none, flavorKB := 0 } : RCEntry)) ≠ [] := by
      intro hcontra
      have hlen := congrArg List.length hcontra
      simp only [List.length_replicate, List.length_nil] at hlen
      omega
    apply claim_C3_capacity_exits.2.2 _ false 2 2
    · intro j hj
      interval_cases j
      · exact ⟨_, rfl, hrep⟩
      · exact ⟨_, rfl, hrep⟩
    · rw [pagesTotal_succ, pagesTotal_succ]
      have h1 : pageLen (fun i => if i ≤ 2 then
          PageResult.pages (List.replicate 5000 { duration := none, flavorKB := 0 })
          else PageResult.pages []) 1 = 5000 := by
        simp only [pageLen]
        norm_num [List.length_replicate]
      have h2 : pageLen (fun i => if i ≤ 2 then
          PageResult.pages (List.replicate 5000 { duration := none, flavorKB := 0 })
          else PageResult.pages []) 2 = 5000 := by
        simp only [pageLen]
        norm_num [List.length_replicate]
      have h0 : pagesTotal (fun i => if i ≤ 2 then
          PageResult.pages (List.replicate 5000 { duration := none, flavorKB := 0 })
          else PageResult.pages []) 3 0 = 0 := by
        simp only [pagesTotal, Finset.range_zero, Finset.sum_empty]
      rw [h1, h2, h0]
    · omega

theorem retryLoop_calls_le (fetch : Nat → Option PyEntry) :
    ∀ (rem att : Nat), (retryLoop fetch att rem).2.2 ≤ rem := by
  intro rem
  induction rem with
  | zero => intro att; simp [retryLoop]
  | succ rem ih =>
    intro att
    cases hf : fetch att with
    | some e => simp [retryLoop, hf]
    | none =>
      simp only [retryLoop, hf]
      have := ih (att + 1)
      simpa using this

theorem get_entry_details_all_fail (fetch : Nat → Option PyEntry)
    (h : ∀ i, i < 3 → fetch i = none) :
    get_entry_details fetch = (none, [1, 2, 4], 3) := by
  have h0 := h 0 (by omega)
  have h1 := h 1 (by omega)
  have h2 := h 2 (by omega)
  show retryLoop fetch 0 3 = (none, [1, 2, 4], 3)
  rw [show (3 : Nat) = 2 + 1 from rfl]
  simp only [retryLoop, h0]
  rw [show (2 : Nat) = 1 + 1 from rfl]
  simp only [retryLoop, h1]
  rw [show (1 : Nat) = 0 + 1 from rfl]
  simp only [retryLoop, h2]
  norm_num

/-- Claim C8: the per-entry detail fetch makes at most 3 calls; when all 3
attempts fail it returns no result after sleeping 1 s, 2 s and 4 s
(2^attempt for attempt indices 0, 1, 2), and a missing detail result makes
the download URL absent; the reporter's pagination loop (the other looping
remote call that is embedded here) never queries the same page twice. -/
theorem claim_C8_retry_policy :
    (∀ fetch : Nat → Option PyEntry, (get_entry_details fetch).2.2 ≤ 3) ∧
    (∀ fetch : Nat → Option PyEntry, (∀ i, i < 3 → fetch i = none) →
      get_entry_details fetch = (none, [1, 2, 4], 3)) ∧
    (∀ (entry : PyEntry) (fr : Option (List FlavorAsset))
        (gu : List Char → Option (List Char)),
      get_download_url entry none fr gu = none) ∧
    (∀ (pl : Nat → PageResult) (fse : Bool) (pi c d f fuel : Nat),
      (fetchLoop pl fse pi c d f fuel).2.Nodup) := by
  refine ⟨?_, get_entry_details_all_fail, ?_, ?_⟩
  · intro fetch
    exact retryLoop_calls_le fetch 3 0
  · intro entry fr gu
    unfold get_download_url
    split <;> rfl
  · intro pl fse pi c d f fuel
    exact fetchLoop_trace_nodup pl fse fuel pi c d f

theorem claim_C8_witness :
    get_entry_details (fun _ => none) = (none, [1, 2, 4], 3) ∧
    (get_entry_details (fun _ => none)).2.2 ≤ 3 :=
  ⟨claim_C8_retry_policy.2.1 (fun _ => none) (fun _ _ => rfl),
   claim_C8_retry_policy.1 (fun _ => none)⟩

theorem daysInYear_ge (y : Nat) : 365 ≤ daysInYear y := by
  unfold daysInYear
  split <;> omega

theorem daysInYear_le (y : Nat) : daysInYear y ≤ 366 := by
  unfold daysInYear
  split <;> omega

theorem isLeap_iff (y : Nat) :
    isLeap y = true ↔ ((y % 4 = 0 ∧ ¬ y % 100 = 0) ∨ y % 400 = 0) := by
  unfold isLeap
  simp [Bool.or_eq_true, Bool.and_eq_true, decide_eq_true_eq]

set_option maxHeartbeats 2000000 in
theorem daysBeforeYear_succ (y : Nat) (hy : 1 ≤ y) :
    daysBeforeYear (y + 1) = daysBeforeYear y + daysInYear y := by
  obtain ⟨a, rfl⟩ : ∃ a, y = a + 1 := ⟨y - 1, by omega⟩
  unfold daysBeforeYear daysInYear
  split
  · rename_i h
    rw [isLeap_iff] at h
    simp only [Nat.add_sub_cancel]
    omega
  · rename_i h
    rw [isLeap_iff] at h
    simp only [Nat.add_sub_cancel]
    omega

theorem daysBeforeYear_mono {y y' : Nat} (h1 : 1 ≤ y) (h : y ≤ y') :
    daysBeforeYear y ≤ daysBeforeYear y' := by
  induction y' with
  | zero => omega
  | succ k ih =>
    rcases Nat.lt_or_ge y (k + 1) with hlt | hge
    · have hk : 1 ≤ k := by omega
      have := ih (by omega)
      rw [daysBeforeYear_succ k hk]
      omega
    · have : y = k + 1 := by omega
      subst this
      exact Nat.le_refl _

theorem daysInMonth_bounds (y m : Nat) (h1 : 1 ≤ m) (h2 : m ≤ 12) :
    28 ≤ daysInMonth y m ∧ daysInMonth y m ≤ 31 := by
  interval_cases m <;> simp [daysInMonth] <;> split <;> omega

theorem daysBeforeMonth_succ (y m : Nat) :
    daysBeforeMonth y (m + 1) = daysBeforeMonth y m + daysInMonth y m := rfl

theorem daysBeforeMonth_mono (y : Nat) {m m' : Nat} (h : m ≤ m') :
    daysBeforeMonth y m ≤ daysBeforeMonth y m' := by
  induction m' with
  | zero =>
    have : m = 0 := by omega
    subst this
    exact Nat.le_refl _
  | succ k ih =>
    rcases Nat.lt_or_ge m (k + 1) with hlt | hge
    · have := ih (by omega)
      rw [daysBeforeMonth_succ]
      omega
    · have : m = k + 1 := by omega
      subst this
      exact Nat.le_refl _

theorem daysBeforeMonth_13 (y : Nat) : daysBeforeMonth y 13 = daysInYear y := by
  by_cases h : isLeap y <;>
    simp [daysBeforeMonth, daysInMonth, daysInYear, h]

theorem resolveYear_spec :
    ∀ (fuel y n : Nat), 1 ≤ y → 1 ≤ n → n ≤ 365 * fuel + 365 →
      1 ≤ (resolveYear y n fuel).1 ∧ y ≤ (resolveYear y n fuel).1 ∧
      daysBeforeYear (resolveYear y n fuel).1 + (resolveYear y n fuel).2 =
        daysBeforeYear y + n ∧
      1 ≤ (resolveYear y n fuel).2 ∧
      (resolveYear y n fuel).2 ≤ daysInYear (resolveYear y n fuel).1 := by
  intro fuel
  induction fuel with
  | zero =>
    intro y n hy hn hbound
    have := daysInYear_ge y
    simp only [resolveYear]
    exact ⟨hy, Nat.le_refl _, by trivial, hn, by omega⟩
  | succ fuel ih =>
    intro y n hy hn hbound
    by_cases hstop : n ≤ daysInYear y
    · simp only [resolveYear, if_pos hstop]
      exact ⟨hy, Nat.le_refl _, by trivial, hn, hstop⟩
    · have hgt : daysInYear y < n := by omega
      have hge := daysInYear_ge y
      have hrec := ih (y + 1) (n - daysInYear y) (by omega) (by omega) (by omega)
      simp only [resolveYear, if_neg hstop]
      refine ⟨hrec.1, by omega, ?_, hrec.2.2.2.1, hrec.2.2.2.2⟩
      rw [hrec.2.2.1, daysBeforeYear_succ y hy]
      omega

theorem resolveMonth_spec (y : Nat) :
    ∀ (fuel m n : Nat), 1 ≤ m → m + fuel ≤ 13 → 1 ≤ n →
      daysBeforeMonth y m + n ≤ daysBeforeMonth y (m + fuel) →
      1 ≤ (resolveMonth y m n fuel).1 ∧ m ≤ (resolveMonth y m n fuel).1 ∧
      (resolveMonth y m n fuel).1 ≤ 12 ∧
      daysBeforeMonth y (resolveMonth y m n fuel).1 + (resolveMonth y m n fuel).2 =
        daysBeforeMonth y m + n ∧
      1 ≤ (resolveMonth y m n fuel).2 ∧
      (resolveMonth y m n fuel).2 ≤ daysInMonth y (resolveMonth y m n fuel).1 := by
  intro fuel
  induction fuel with
  | zero =>
    intro m n hm hm13 hn hbound
    simp only [Nat.add_zero] at hbound
    omega
  | succ fuel ih =>
    intro m n hm hm13 hn hbound
    by_cases hstop : n ≤ daysInMonth y m
    · simp only [resolveMonth, if_pos hstop]
      exact ⟨hm, Nat.le_refl _, by omega, by trivial, hn, hstop⟩
    · have hgt : daysInMonth y m < n := by
        omega
      have hshift : daysBeforeMonth y (m + 1) + (n - daysInMonth y m) ≤
          daysBeforeMonth y (m + 1 + fuel) := by
        rw [daysBeforeMonth_succ]
        have : m + 1 + fuel = m + (fuel + 1) := by omega
        rw [this]
        omega
      have hrec := ih (m + 1) (n - daysInMonth y m) (by omega) (by omega) (by omega) hshift
      simp only [resolveMonth, if_neg hstop]
      refine ⟨hrec.1, by omega, hrec.2.2.1, ?_, hrec.2.2.2.2.1, hrec.2.2.2.2.2⟩
      rw [hrec.2.2.2.1, daysBeforeMonth_succ]
      omega

theorem toOrdinal_pos (d : PyDate) (hd : ValidDate d) : 1 ≤ toOrdinal d := by
  obtain ⟨_, _, _, hday, _⟩ := hd
  unfold toOrdinal
  omega

theorem fromOrdinal_valid (n : Nat) (hn : 1 ≤ n) :
    ValidDate (fromOrdinal n) ∧ toOrdinal (fromOrdinal n) = n := by
  have hbound : n ≤ 365 * (n / 365 + 1) + 365 := by omega
  have hy := resolveYear_spec (n / 365 + 1) 1 n (Nat.le_refl _) hn hbound
  set yr := resolveYear 1 n (n / 365 + 1) with hyr
  have hdby1 : daysBeforeYear 1 = 0 := by
    unfold daysBeforeYear
    norm_num
  have hmbound : daysBeforeMonth yr.1 1 + yr.2 ≤ daysBeforeMonth yr.1 (1 + 12) := by
    have h13 : daysBeforeMonth yr.1 13 = daysInYear yr.1 := daysBeforeMonth_13 yr.1
    have hm1 : daysBeforeMonth yr.1 1 = 0 := rfl
    have : (1 + 12 : Nat) = 13 := rfl
    rw [this, h13, hm1]
    omega
  have hm := resolveMonth_spec yr.1 12 1 yr.2 (Nat.le_refl _) (by omega)
    hy.2.2.2.1 hmbound
  set md := resolveMonth yr.1 1 yr.2 12 with hmd
  have hfo : fromOrdinal n = { year := yr.1, month := md.1, day := md.2 } := rfl
  rw [hfo]
  constructor
  · exact ⟨hy.1, hm.1, hm.2.2.1, hm.2.2.2.2.1, hm.2.2.2.2.2⟩
  · unfold toOrdinal
    simp only
    have hm1 : daysBeforeMonth yr.1 1 = 0 := rfl
    have := hm.2.2.2.1
    rw [hm1] at this
    have hn2 := hy.2.2.1
    rw [hdby1] at hn2
    omega

theorem toOrdinal_year_bounds (d : PyDate) (hd : ValidDate d) :
    daysBeforeYear d.year < toOrdinal d ∧
    toOrdinal d ≤ daysBeforeYear d.year + daysInYear d.year := by
  obtain ⟨hy, hm1, hm12, hd1, hdm⟩ := hd
  unfold toOrdinal
  constructor
  · omega
  · have hstep : daysBeforeMonth d.year d.month + d.day ≤
        daysBeforeMonth d.year (d.month + 1) := by
      rw [daysBeforeMonth_succ]
      omega
    have hmono : daysBeforeMonth d.year (d.month + 1) ≤ daysBeforeMonth d.year 13 :=
      daysBeforeMonth_mono _ (by omega)
    rw [daysBeforeMonth_13] at hmono
    omega

theorem toOrdinal_lt_of_year_lt (u v : PyDate) (hu : ValidDate u) (hv : ValidDate v)
    (h : u.year < v.year) : toOrdinal u < toOrdinal v := by
  have hb := toOrdinal_year_bounds u hu
  have hb2 := toOrdinal_year_bounds v hv
  have hmono : daysBeforeYear (u.year + 1) ≤ daysBeforeYear v.year :=
    daysBeforeYear_mono (by omega) (by omega)
  rw [daysBeforeYear_succ u.year hu.1] at hmono
  omega

theorem toOrdinal_lt_of_month_lt (u v : PyDate) (hu : ValidDate u) (hv : ValidDate v)
    (hy : u.year = v.year) (h : u.month < v.month) : toOrdinal u < toOrdinal v := by
  obtain ⟨hy1, hm1, hm12, hd1, hdm⟩ := hu
  obtain ⟨hy1v, hm1v, hm12v, hd1v, hdmv⟩ := hv
  unfold toOrdinal
  rw [← hy]
  have hstep : daysBeforeMonth u.year u.month + u.day ≤
      daysBeforeMonth u.year (u.month + 1) := by
    rw [daysBeforeMonth_succ]
    omega
  have hmono : daysBeforeMonth u.year (u.month + 1) ≤ daysBeforeMonth u.year v.month :=
    daysBeforeMonth_mono _ (by omega)
  omega

theorem toOrdinal_inj (u v : PyDate) (hu : ValidDate u) (hv : ValidDate v)
    (h : toOrdinal u = toOrdinal v) : u = v := by
  have hyear : u.year = v.year := by
    by_contra hne
    rcases Nat.lt_or_ge u.year v.year with hlt | hge
    · exact absurd h (Nat.ne_of_lt (toOrdinal_lt_of_year_lt u v hu hv hlt))
    · have hlt2 : v.year < u.year := by omega
      exact absurd h.symm (Nat.ne_of_lt (toOrdinal_lt_of_year_lt v u hv hu hlt2))
  have hmonth : u.month = v.month := by
    by_contra hne
    rcases Nat.lt_or_ge u.month v.month with hlt | hge
    · exact absurd h (Nat.ne_of_lt (toOrdinal_lt_of_month_lt u v hu hv hyear hlt))
    · have hlt2 : v.month < u.month := by omega
      exact absurd h.symm (Nat.ne_of_lt (toOrdinal_lt_of_month_lt v u hv hu hyear.symm hlt2))
  have hday : u.day = v.day := by
    unfold toOrdinal at h
    rw [hyear, hmonth] at h
    omega
  cases u
  cases v
  simp only [PyDate.mk.injEq]
  exact ⟨hyear, hmonth, hday⟩

theorem fromOrdinal_toOrdinal (v : PyDate) (hv : ValidDate v) :
    fromOrdinal (toOrdinal v) = v := by
  have hpos := toOrdinal_pos v hv
  have h := fromOrdinal_valid (toOrdinal v) hpos
  exact toOrdinal_inj _ v h.1 hv h.2

theorem toOrdinal_last_of_year (d : PyDate) (hd : ValidDate d) :
    toOrdinal d ≤ toOrdinal { year := d.year, month := 12, day := 31 } := by
  obtain ⟨hy, hm1, hm12, hd1, hdm⟩ := hd
  unfold toOrdinal
  simp only
  have h13 : daysBeforeMonth d.year 13 = daysBeforeMonth d.year 12 + daysInMonth d.year 12 := rfl
  have h31 : daysInMonth d.year 12 = 31 := rfl
  have hstep : daysBeforeMonth d.year d.month + d.day ≤
      daysBeforeMonth d.year (d.month + 1) := by
    rw [daysBeforeMonth_succ]
    omega
  have hmono := daysBeforeMonth_mono d.year (show d.month + 1 ≤ 13 by omega)
  omega

theorem nextIntervalEnd_one (cur : Nat) :
    nextIntervalEnd 1 cur =
      some (toOrdinal { year := (fromOrdinal cur).year, month := 12, day := 31 }) := rfl

theorem nextIntervalEnd_two (cur : Nat) :
    nextIntervalEnd 2 cur =
      some (toOrdinal (PyDate.mk
        (fromOrdinal (toOrdinal
          (PyDate.mk (fromOrdinal cur).year (fromOrdinal cur).month 28) + 4)).year
        (fromOrdinal (toOrdinal
          (PyDate.mk (fromOrdinal cur).year (fromOrdinal cur).month 28) + 4)).month
        1) - 1) := rfl

theorem monthly_next_ge (cur : Nat) (hcur : 1 ≤ cur) :
    ∃ nd, nextIntervalEnd 2 cur = some nd ∧ cur ≤ nd := by
  obtain ⟨hvalid, hord⟩ := fromOrdinal_valid cur hcur
  obtain ⟨hy, hm1, hm12, hd1, hdm⟩ := hvalid
  have hdimb := daysInMonth_bounds (fromOrdinal cur).year (fromOrdinal cur).month hm1 hm12
  have hu : toOrdinal (PyDate.mk (fromOrdinal cur).year (fromOrdinal cur).month 28) + 4 =
      daysBeforeYear (fromOrdinal cur).year +
        daysBeforeMonth (fromOrdinal cur).year (fromOrdinal cur).month + 32 := by
    unfold toOrdinal
    simp only
  by_cases hm : (fromOrdinal cur).month < 12
  · have hdimb2 := daysInMonth_bounds (fromOrdinal cur).year ((fromOrdinal cur).month + 1)
      (by omega) (by omega)
    have hwvalid : ValidDate (PyDate.mk (fromOrdinal cur).year ((fromOrdinal cur).month + 1)
        (32 - daysInMonth (fromOrdinal cur).year (fromOrdinal cur).month)) := by
      unfold ValidDate
      simp only
      omega
    have hwt : toOrdinal (PyDate.mk (fromOrdinal cur).year ((fromOrdinal cur).month + 1)
        (32 - daysInMonth (fromOrdinal cur).year (fromOrdinal cur).month)) =
        toOrdinal (PyDate.mk (fromOrdinal cur).year (fromOrdinal cur).month 28) + 4 := by
      rw [hu]
      unfold toOrdinal
      simp only
      rw [daysBeforeMonth_succ]
      omega
    have hfw : fromOrdinal
        (toOrdinal (PyDate.mk (fromOrdinal cur).year (fromOrdinal cur).month 28) + 4) =
        PyDate.mk (fromOrdinal cur).year ((fromOrdinal cur).month + 1)
          (32 - daysInMonth (fromOrdinal cur).year (fromOrdinal cur).month) := by
      rw [← hwt]
      exact fromOrdinal_toOrdinal _ hwvalid
    refine ⟨_, nextIntervalEnd_two cur, ?_⟩
    rw [hfw]
    simp only
    conv_lhs => rw [← hord]
    unfold toOrdinal
    simp only
    rw [daysBeforeMonth_succ]
    omega
  · have hmeq : (fromOrdinal cur).month = 12 := by omega
    have hwvalid : ValidDate (PyDate.mk ((fromOrdinal cur).year + 1) 1 1) := by
      unfold ValidDate
      simp only
      have h31 : daysInMonth ((fromOrdinal cur).year + 1) 1 = 31 := rfl
      omega
    have hwt : toOrdinal (PyDate.mk ((fromOrdinal cur).year + 1) 1 1) =
        toOrdinal (PyDate.mk (fromOrdinal cur).year (fromOrdinal cur).month 28) + 4 := by
      rw [hu]
      unfold toOrdinal
      simp only
      rw [daysBeforeYear_succ _ hy]
      have h0 : daysBeforeMonth ((fromOrdinal cur).year + 1) 1 = 0 := rfl
      have h13 : daysInYear (fromOrdinal cur).year =
          daysBeforeMonth (fromOrdinal cur).year 13 := (daysBeforeMonth_13 _).symm
      have h12 : daysBeforeMonth (fromOrdinal cur).year 13 =
          daysBeforeMonth (fromOrdinal cur).year 12 +
            daysInMonth (fromOrdinal cur).year 12 := rfl
      have h31 : daysInMonth (fromOrdinal cur).year 12 = 31 := rfl
      rw [hmeq]
      omega
    have hfw : fromOrdinal
        (toOrdinal (PyDate.mk (fromOrdinal cur).year (fromOrdinal cur).month 28) + 4) =
        PyDate.mk ((fromOrdinal cur).year + 1) 1 1 := by
      rw [← hwt]
      exact fromOrdinal_toOrdinal _ hwvalid
    refine ⟨_, nextIntervalEnd_two cur, ?_⟩
    rw [hfw]
    simp only
    conv_lhs => rw [← hord]
    unfold toOrdinal
    simp only
    rw [daysBeforeYear_succ _ hy]
    have h0 : daysBeforeMonth ((fromOrdinal cur).year + 1) 1 = 0 := rfl
    have h13 : daysInYear (fromOrdinal cur).year =
        daysBeforeMonth (fromOrdinal cur).year 13 := (daysBeforeMonth_13 _).symm
    have h12 : daysBeforeMonth (fromOrdinal cur).year 13 =
        daysBeforeMonth (fromOrdinal cur).year 12 +
          daysInMonth (fromOrdinal cur).year 12 := rfl
    have h31 : daysInMonth (fromOrdinal cur).year 12 = 31 := rfl
    rw [hmeq] at hdm ⊢
    omega

theorem nextIntervalEnd_ge (mode cur : Nat) (hcur : 1 ≤ cur)
    (hmode : mode = 1 ∨ mode = 2 ∨ mode = 3 ∨ mode = 4) :
    ∃ nd, nextIntervalEnd mode cur = some nd ∧ cur ≤ nd := by
  rcases hmode with rfl | rfl | rfl | rfl
  · obtain ⟨hvalid, hord⟩ := fromOrdinal_valid cur hcur
    refine ⟨_, nextIntervalEnd_one cur, ?_⟩
    calc cur = toOrdinal (fromOrdinal cur) := hord.symm
      _ ≤ _ := toOrdinal_last_of_year _ hvalid
  · exact monthly_next_ge cur hcur
  · exact ⟨cur + 6, rfl, by omega⟩
  · exact ⟨cur, rfl, by omega⟩

theorem intervalRangesAux_unfold (mode E cur fuel : Nat) :
    intervalRangesAux mode E cur fuel =
      if E < cur then some []
      else
        match fuel with
        | 0 => none
        | fuel + 1 =>
          match nextIntervalEnd mode cur with
          | none => none
          | some nd =>
            match intervalRangesAux mode E (nd + 1) fuel with
            | none => none
            | some rest => some ((cur, min nd E) :: rest) := by
  rw [intervalRangesAux.eq_def]

theorem intervalRangesAux_spec (mode E : Nat)
    (hmode : mode = 1 ∨ mode = 2 ∨ mode = 3 ∨ mode = 4) :
    ∀ (fuel S : Nat), 1 ≤ S → S ≤ E + 1 → E + 1 - S ≤ fuel →
      ∃ l, intervalRangesAux mode E S fuel = some l ∧ chunksCover S E l = true := by
  intro fuel
  induction fuel with
  | zero =>
    intro S hS hSE hfuel
    have hSE1 : S = E + 1 := by omega
    refine ⟨[], ?_, ?_⟩
    · rw [intervalRangesAux_unfold, if_pos (by omega)]
    · simp [chunksCover, hSE1]
  | succ fuel ih =>
    intro S hS hSE hfuel
    by_cases hend : E < S
    · refine ⟨[], ?_, ?_⟩
      · rw [intervalRangesAux_unfold, if_pos hend]
      · have hSE1 : S = E + 1 := by omega
        simp [chunksCover, hSE1]
    · obtain ⟨nd, hnd, hge⟩ := nextIntervalEnd_ge mode S hS hmode
      by_cases hclamp : nd ≤ E
      · obtain ⟨rest, hrest, hcov⟩ := ih (nd + 1) (by omega) (by omega) (by omega)
        refine ⟨(S, min nd E) :: rest, ?_, ?_⟩
        · rw [intervalRangesAux_unfold, if_neg hend]
          simp only [hnd, hrest]
        · have hmin : min nd E = nd := Nat.min_eq_left hclamp
          rw [hmin]
          simp only [chunksCover, Bool.and_eq_true, decide_eq_true_eq]
          exact ⟨⟨⟨by trivial, hge⟩, hclamp⟩, hcov⟩
      · refine ⟨[(S, min nd E)], ?_, ?_⟩
        · rw [intervalRangesAux_unfold, if_neg hend]
          have htail : intervalRangesAux mode E (nd + 1) fuel = some [] := by
            rw [intervalRangesAux_unfold, if_pos (by omega)]
          simp only [hnd, htail]
        · have hmin : min nd E = E := Nat.min_eq_right (by omega)
          rw [hmin]
          simp only [chunksCover, Bool.and_eq_true, decide_eq_true_eq]
          exact ⟨⟨⟨by trivial, by omega⟩, Nat.le_refl _⟩, by trivial⟩

theorem get_interval_ranges_spec (S E mode : Nat) (hS : 1 ≤ S) (hSE : S ≤ E)
    (hmode : mode = 1 ∨ mode = 2 ∨ mode = 3 ∨ mode = 4) :
    ∃ l, get_interval_ranges S E mode = some l ∧ chunksCover S E l = true := by
  unfold get_interval_ranges
  exact intervalRangesAux_spec mode E hmode (E + 1 - S) S hS (by omega) (Nat.le_refl _)

set_option maxRecDepth 100000 in
/-- Claim C1: for every ordinal pair S ≤ E (S ≥ 1, i.e. any real dates) and
every interval mode in 1..4, get_interval_ranges yields chunks that each
satisfy start ≤ end, are contiguous and non-overlapping, cover exactly
[S, E], and never end past E (chunksCover); and monthly chunking of
2024-01-15 through 2024-03-10 yields exactly (2024-01-15, 2024-01-31),
(2024-02-01, 2024-02-29), (2024-03-01, 2024-03-10). -/
theorem claim_C1_interval_ranges :
    (∀ S E mode : Nat, 1 ≤ S → S ≤ E →
      (mode = 1 ∨ mode = 2 ∨ mode = 3 ∨ mode = 4) →
      ∃ l, get_interval_ranges S E mode = some l ∧ chunksCover S E l = true) ∧
    get_interval_ranges (toOrdinal { year := 2024, month := 1, day := 15 })
        (toOrdinal { year := 2024, month := 3, day := 10 }) 2 =
      some [(toOrdinal { year := 2024, month := 1, day := 15 },
             toOrdinal { year := 2024, month := 1, day := 31 }),
            (toOrdinal { year := 2024, month := 2, day := 1 },
             toOrdinal { year := 2024, month := 2, day := 29 }),
            (toOrdinal { year := 2024, month := 3, day := 1 },
             toOrdinal { year := 2024, month := 3, day := 10 })] := by
  constructor
  · exact fun S E mode h1 h2 h3 => get_interval_ranges_spec S E mode h1 h2 h3
  · decide

theorem claim_C1_witness :
    ∃ l, get_interval_ranges 700000 700010 4 = some l ∧
      chunksCover 700000 700010 l = true :=
  claim_C1_interval_ranges.1 700000 700010 4 (by decide) (by decide) (by decide)

theorem claim_C2_witness :
    get_file_name (some (("video.mp4").toList)) []
      [("video.mp4").toList, ("video_1.mp4").toList] ∉
      [("video.mp4").toList, ("video_1.mp4").toList] :=
  claim_C2_collision_avoidance.1 (some (("video.mp4").toList)) []
    [("video.mp4").toList, ("video_1.mp4").toList]

theorem claim_C10_witness :
    prompt_flag (("no").toList) = true ∧ export_csv_enabled (some (("0").toList)) = true :=
  ⟨(claim_C10_truthiness.2.1 (("no").toList)).mpr (by decide),
   (claim_C10_truthiness.1 (some (("0").toList))).mpr ⟨_, rfl, by decide⟩⟩
